import Mathlib

/-!
# TradeVault — Live Strategy Signal Engine: formal model

A shallow embedding of `src/rl/live-signals.js` (class `LiveSignalEngine`).
JavaScript numbers are modelled as rationals (`ℚ`); timestamps as integers.
JavaScript division by zero yields `Infinity`/`NaN` while `ℚ` division by
zero yields `0`; every theorem below that touches a quotient either proves
the divisor nonzero or is insensitive to that difference (noted in place).
-/

namespace TradeVault

/-- One OHLCV bar, as built by `_processKline` / `_fetchInitialCandles`.
The JS field `open` is a Lean keyword, rendered `open_`. -/
structure Candle where
  time : Int
  open_ : ℚ
  high : ℚ
  low : ℚ
  close : ℚ
  volume : ℚ
  closed : Bool
deriving DecidableEq, Repr

/-- Signal actions emitted by the strategy evaluators. -/
inductive Action where
  | BUY
  | SELL
  | HOLD
deriving DecidableEq, Repr

/-- A strategy evaluator output: the `action` and `strength` fields of the
JS signal objects (the human-readable rationale strings and the extra
per-strategy display fields carry no logic and are omitted). -/
structure Signal where
  action : Action
  strength : ℚ
deriving DecidableEq, Repr

/-! ## Candle aggregation state machine (`_processKline`, lines 144–151)

```js
const candles = this.candles[sym];
if (candles.length > 0 && candles[candles.length - 1].time === candle.time) {
    candles[candles.length - 1] = candle;
} else if (candle.closed || candles.length === 0) {
    candles.push(candle);
    if (candles.length > 500) candles.shift(); // Keep last 500
}
```
-/

/-- The buffer transition of `_processKline` on one inbound tick `c`.
`buf.getLast?.map Candle.time = some c.time` is exactly
`candles.length > 0 && candles[candles.length-1].time === candle.time`. -/
def updateBuffer (buf : List Candle) (c : Candle) : List Candle :=
  if buf.getLast?.map Candle.time = some c.time then
    buf.dropLast ++ [c]
  else if c.closed || buf.isEmpty then
    if 500 < (buf ++ [c]).length then (buf ++ [c]).tail else buf ++ [c]
  else
    buf

/-- The buffer obtained by processing a tick sequence starting from an
empty buffer (`subscribe` initializes `this.candles[sym] = []`). -/
def processTicks (ticks : List Candle) : List Candle :=
  ticks.foldl updateBuffer []

/-! ### Buffer invariants -/

/-- Invariant carried through a fold of `updateBuffer`: buffered timestamps
are strictly increasing, and all of them are at most the bound `b` (the
timestamp of the most recently processed tick). -/
def BufInv (buf : List Candle) (b : Int) : Prop :=
  List.Chain' (· < ·) (buf.map Candle.time) ∧ ∀ a ∈ buf, a.time ≤ b

theorem mem_of_getLast?' {l : List Candle} {a : Candle} (h : a ∈ l.getLast?) : a ∈ l := by
  obtain ⟨hne, rfl⟩ := List.mem_getLast?_eq_getLast h
  exact List.getLast_mem hne

theorem updateBuffer_inv {buf : List Candle} {b : Int} {c : Candle}
    (h : BufInv buf b) (hbc : b ≤ c.time) : BufInv (updateBuffer buf c) c.time := by
  obtain ⟨hchain, hle⟩ := h
  unfold updateBuffer
  split
  · -- replace-in-place branch
    next heq =>
    rcases buf.eq_nil_or_concat with rfl | ⟨l, a, rfl⟩
    · exact absurd heq (by simp)
    · simp only [List.concat_eq_append] at hchain hle heq ⊢
      rw [List.getLast?_concat, Option.map_some'] at heq
      injection heq with heq
      constructor
      · have h1 : (l ++ [a]).dropLast ++ [c] = l ++ [c] := by simp
        rw [h1]
        have h2 : (l ++ [c]).map Candle.time = (l ++ [a]).map Candle.time := by
          simp only [List.map_append, List.map_cons, List.map_nil, heq]
        rw [h2]; exact hchain
      · intro x hx
        simp only [List.dropLast_concat] at hx
        rcases List.mem_append.mp hx with hx | hx
        · exact le_trans (hle x (by simp [hx])) hbc
        · simp at hx; subst hx; exact le_rfl
  · next hne =>
    split
    · -- append branch
      have hlast : ∀ a ∈ buf.getLast?, a.time < c.time := by
        intro a ha
        have h1 : a.time ≤ b := hle a (mem_of_getLast?' ha)
        have h2 : a.time ≠ c.time := by
          intro hEq; exact hne (by rw [ha]; simp [hEq])
        exact lt_of_le_of_ne (le_trans h1 hbc) h2
      have hchain' : List.Chain' (· < ·) ((buf ++ [c]).map Candle.time) := by
        rw [List.map_append]
        apply List.Chain'.append hchain (by simp)
        intro x hx y hy
        simp only [List.map_cons, List.map_nil, List.head?_cons, Option.mem_def,
          Option.some.injEq] at hy
        subst hy
        rw [List.getLast?_map] at hx
        simp only [Option.mem_def, Option.map_eq_some'] at hx
        obtain ⟨a, ha, rfl⟩ := hx
        exact hlast a ha
      have hmem : ∀ x ∈ buf ++ [c], x.time ≤ c.time := by
        intro x hx
        rcases List.mem_append.mp hx with hx | hx
        · exact le_trans (hle x hx) hbc
        · simp at hx; subst hx; exact le_rfl
      split
      · exact ⟨by rw [List.map_tail]; exact hchain'.tail,
          fun x hx => hmem x (List.mem_of_mem_tail hx)⟩
      · exact ⟨hchain', hmem⟩
    · -- drop branch
      exact ⟨hchain, fun x hx => le_trans (hle x hx) hbc⟩

theorem foldl_updateBuffer_inv : ∀ (ticks : List Candle) (buf : List Candle) (b : Int),
    BufInv buf b → List.Chain (fun x y => x ≤ y) b (ticks.map Candle.time) →
    List.Chain' (· < ·) ((ticks.foldl updateBuffer buf).map Candle.time)
  | [], _, _, hinv, _ => hinv.1
  | t :: ts, buf, _, hinv, hchain => by
    simp only [List.map_cons, List.chain_cons] at hchain
    exact foldl_updateBuffer_inv ts (updateBuffer buf t) t.time
      (updateBuffer_inv hinv hchain.1) hchain.2

theorem processTicks_sorted (ticks : List Candle)
    (h : List.Chain' (fun x y => x.time ≤ y.time) ticks) :
    List.Pairwise (· < ·) ((processTicks ticks).map Candle.time) := by
  rw [← List.chain'_iff_pairwise]
  cases ticks with
  | nil => simp [processTicks]
  | cons t ts =>
    apply foldl_updateBuffer_inv (t :: ts) [] t.time ⟨by simp, by simp⟩
    simp only [List.map_cons, List.chain_cons]
    refine ⟨le_rfl, ?_⟩
    have hmapped : List.Chain' (fun x y => x ≤ y) ((t :: ts).map Candle.time) :=
      List.chain'_map_of_chain' Candle.time (fun _ _ hab => hab) h
    simp only [List.map_cons] at hmapped
    exact hmapped

/-- C1, counterexample: three ticks, all marked closed, with timestamps
1, 2, 1 — the out-of-order closed tick is appended, so the buffer holds two
entries with timestamp 1. The claim's timestamp-uniqueness invariant fails
for arbitrary tick sequences. -/
theorem c1_duplicate_timestamp_cex :
    ¬ List.Pairwise (fun a b => a.time ≠ b.time)
      (processTicks [⟨1, 1, 1, 1, 1, 0, true⟩, ⟨2, 1, 1, 1, 1, 0, true⟩,
        ⟨1, 1, 1, 1, 2, 0, true⟩]) := by
  decide

/-- C1, amended: for ticks delivered with non-decreasing timestamps, the
buffer built by `_processKline` from an empty buffer never holds two entries
with the same timestamp; and whenever a tick's timestamp equals the last
buffered entry's timestamp, that entry is replaced in place, leaving the
buffer length unchanged. -/
theorem c1_candle_buffer_amended :
    (∀ ticks : List Candle, List.Chain' (fun x y => x.time ≤ y.time) ticks →
      List.Pairwise (fun a b => a.time ≠ b.time) (processTicks ticks)) ∧
    (∀ (buf : List Candle) (c : Candle),
      buf.getLast?.map Candle.time = some c.time →
      updateBuffer buf c = buf.dropLast ++ [c] ∧
        (updateBuffer buf c).length = buf.length) := by
  constructor
  · intro ticks h
    have hp := processTicks_sorted ticks h
    rw [List.pairwise_map] at hp
    exact hp.imp (fun hlt => ne_of_lt hlt)
  · intro buf c h
    have hne : buf ≠ [] := by
      intro hnil; rw [hnil] at h; exact absurd h (by simp)
    have hpos : 1 ≤ buf.length := List.length_pos.mpr hne
    constructor
    · unfold updateBuffer; rw [if_pos h]
    · unfold updateBuffer; rw [if_pos h]
      simp only [List.length_append, List.length_dropLast, List.length_cons,
        List.length_nil]
      omega

/-- Witness for `c1_candle_buffer_amended` at concrete inputs. -/
theorem c1_candle_buffer_amended_witness :
    List.Pairwise (fun a b => a.time ≠ b.time)
      (processTicks [⟨1, 1, 1, 1, 1, 0, true⟩, ⟨2, 1, 1, 1, 1, 0, true⟩]) ∧
    updateBuffer [⟨1, 1, 1, 1, 1, 0, true⟩] ⟨1, 2, 2, 2, 2, 0, false⟩ =
      [⟨1, 2, 2, 2, 2, 0, false⟩] := by
  constructor
  · exact c1_candle_buffer_amended.1 _
      (List.chain'_cons.mpr ⟨by decide, List.chain'_singleton _⟩)
  · have h := (c1_candle_buffer_amended.2 [⟨1, 1, 1, 1, 1, 0, true⟩]
      ⟨1, 2, 2, 2, 2, 0, false⟩ (by decide)).1
    simpa using h

/-- C3: the buffer never grows beyond 500 entries, and an append to a full
(500-entry) buffer drops exactly the oldest entry and appends the new candle
at the end, keeping the remaining entries in order. -/
theorem c3_bounded_fifo :
    (∀ (buf : List Candle) (c : Candle), buf.length ≤ 500 →
      (updateBuffer buf c).length ≤ 500) ∧
    (∀ (buf : List Candle) (c : Candle), buf.length = 500 →
      buf.getLast?.map Candle.time ≠ some c.time → c.closed = true →
      updateBuffer buf c = buf.tail ++ [c]) := by
  constructor
  · intro buf c h
    unfold updateBuffer
    split
    · next heq =>
      have hne : buf ≠ [] := by
        intro hnil; rw [hnil] at heq; exact absurd heq (by simp)
      have hpos : 1 ≤ buf.length := List.length_pos.mpr hne
      simp only [List.length_append, List.length_dropLast, List.length_cons,
        List.length_nil]
      omega
    · split
      · split
        · next hgt =>
          simp only [List.length_tail, List.length_append, List.length_cons,
            List.length_nil]
          omega
        · next hle2 =>
          simp only [List.length_append, List.length_cons, List.length_nil] at hle2 ⊢
          omega
      · exact h
  · intro buf c h500 hne hc
    unfold updateBuffer
    rw [if_neg hne, if_pos (by rw [hc]; rfl),
      if_pos (by simp only [List.length_append, List.length_cons, List.length_nil, h500]; omega)]
    cases buf with
    | nil => simp at h500
    | cons a l => simp

theorem getLast?_replicate_c (n : Nat) (d : Candle) :
    (List.replicate (n + 1) d).getLast? = some d := by
  induction n with
  | zero => rfl
  | succ k ih =>
    rw [List.replicate_succ, List.replicate_succ, List.getLast?_cons_cons,
      ← List.replicate_succ]
    exact ih

/-- Witness for `c3_bounded_fifo` on a concrete full 500-entry buffer. -/
theorem c3_bounded_fifo_witness :
    (updateBuffer (List.replicate 500 ⟨0, 1, 1, 1, 1, 1, true⟩)
        ⟨1, 1, 1, 1, 1, 1, true⟩).length ≤ 500 ∧
    updateBuffer (List.replicate 500 ⟨0, 1, 1, 1, 1, 1, true⟩) ⟨1, 1, 1, 1, 1, 1, true⟩ =
      (List.replicate 500 (⟨0, 1, 1, 1, 1, 1, true⟩ : Candle)).tail ++
        [⟨1, 1, 1, 1, 1, 1, true⟩] := by
  constructor
  · exact c3_bounded_fifo.1 _ _ (le_of_eq (List.length_replicate _ _))
  · refine c3_bounded_fifo.2 _ _ (List.length_replicate _ _) ?_ rfl
    show (List.replicate (499 + 1) (⟨0, 1, 1, 1, 1, 1, true⟩ : Candle)).getLast?.map
      Candle.time ≠ some (Candle.time ⟨1, 1, 1, 1, 1, 1, true⟩)
    rw [getLast?_replicate_c]
    decide

/-! ## Signal deduplication (`_isNewSignal`, lines 183–187)

```js
_isNewSignal(sym, strat, signal) {
    const last = this.lastSignals[sym]?.[strat];
    if (!last) return true;
    return last.action !== signal.action;
}
```
-/

/-- `_isNewSignal` for one (symbol, strategy) slot: `last` is the recorded
signal (`none` when no entry exists). -/
def isNewSignal (last : Option Signal) (s : Signal) : Bool :=
  match last with
  | none => true
  | some l => l.action != s.action

/-- The per-(symbol, strategy) emission step of `_processKline`
(lines 169–178): when `_isNewSignal` holds the signal is recorded in
`lastSignals` and broadcast (flag `true`); otherwise the slot is untouched
and nothing is emitted (flag `false`). -/
def stepSignal (last : Option Signal) (s : Signal) : Option Signal × Bool :=
  if isNewSignal last s then (some s, true) else (last, false)

/-- C2: `_isNewSignal` returns true iff no action is recorded for the pair
or the new action differs from the recorded one; consecutively evaluated
signals with equal actions are emitted at most once (the second is always
suppressed), and a changed action following any signal is always emitted. -/
theorem stepSignal_fst (last : Option Signal) (s : Signal) :
    ∃ l', (stepSignal last s).1 = some l' ∧ l'.action = s.action := by
  cases last with
  | none => exact ⟨s, rfl, rfl⟩
  | some l =>
    by_cases hl : l.action = s.action
    · refine ⟨l, ?_, hl⟩
      simp [stepSignal, isNewSignal, hl]
    · refine ⟨s, ?_, rfl⟩
      simp [stepSignal, isNewSignal, hl]

theorem c2_dedup_correct :
    (∀ (last : Option Signal) (s : Signal),
      isNewSignal last s = true ↔
        last = none ∨ ∃ l, last = some l ∧ l.action ≠ s.action) ∧
    (∀ (last : Option Signal) (s1 s2 : Signal), s1.action = s2.action →
      (stepSignal (stepSignal last s1).1 s2).2 = false) ∧
    (∀ (last : Option Signal) (s1 s2 : Signal), s1.action ≠ s2.action →
      (stepSignal (stepSignal last s1).1 s2).2 = true) := by
  refine ⟨?_, ?_, ?_⟩
  · intro last s
    cases last with
    | none => simp [isNewSignal]
    | some l => simp [isNewSignal, bne_iff_ne]
  · intro last s1 s2 h
    obtain ⟨l', hfst, hact⟩ := stepSignal_fst last s1
    rw [hfst]
    simp [stepSignal, isNewSignal, hact, h]
  · intro last s1 s2 h
    obtain ⟨l', hfst, hact⟩ := stepSignal_fst last s1
    rw [hfst]
    simp [stepSignal, isNewSignal, hact, bne_iff_ne, h]

/-- Witness for `c2_dedup_correct` on concrete signals. -/
theorem c2_dedup_correct_witness :
    isNewSignal none ⟨Action.BUY, 50⟩ = true ∧
    (stepSignal (stepSignal none ⟨Action.BUY, 50⟩).1 ⟨Action.BUY, 70⟩).2 = false ∧
    (stepSignal (stepSignal none ⟨Action.BUY, 50⟩).1 ⟨Action.SELL, 70⟩).2 = true := by
  refine ⟨?_, ?_, ?_⟩
  · exact (c2_dedup_correct.1 none ⟨Action.BUY, 50⟩).mpr (Or.inl rfl)
  · exact c2_dedup_correct.2.1 none ⟨Action.BUY, 50⟩ ⟨Action.BUY, 70⟩ rfl
  · exact c2_dedup_correct.2.2 none ⟨Action.BUY, 50⟩ ⟨Action.SELL, 70⟩ (by decide)

/-! ## Indicator library and strategy evaluators

Shallow embedding of `_sma`, `_rsi`, `_vwap`, `_linearRegSlope`,
`_rSquared` and the five evaluators (`_smaCrossover`, `_rsiStrategy`,
`_breakoutStrategy`, `_hftMomentum`, `_linearRegression`), dropping the
leading underscore of the JS method names. Accumulation loops are rendered
as list/`Finset.range` sums; `values.slice(a, b)` becomes drop/take. -/

/-- Placeholder candle for (unreachable) out-of-range indexing, mirroring
that the JS code never hits `undefined` on the guarded paths. -/
def dummyCandle : Candle := ⟨0, 0, 0, 0, 0, 0, false⟩

/-- `_sma(values, period)`: the list of `period`-wide window averages,
empty when fewer than `period` values exist. -/
def sma (values : List ℚ) (period : Nat) : List ℚ :=
  if values.length < period then []
  else (List.range (values.length - period + 1)).map
    (fun j => ((values.drop j).take period).sum / (period : ℚ))

/-- `Math.max(...xs)` on a nonempty argument list (the code only applies it
to the nonempty 20-candle window; the `[]` case is unreachable). -/
def jsMax : List ℚ → ℚ
  | [] => 0
  | x :: xs => xs.foldl max x

/-- `Math.min(...xs)` on a nonempty argument list. -/
def jsMin : List ℚ → ℚ
  | [] => 0
  | x :: xs => xs.foldl min x

/-- `_rsi(values, period)`: Wilder-smoothed RSI, `none` when fewer than
`period + 1` values exist. -/
def rsi (values : List ℚ) (period : Nat) : Option ℚ :=
  if values.length < period + 1 then none
  else
    let diff := fun i : Nat => values.getD i 0 - values.getD (i - 1) 0
    let gains := ∑ i in Finset.Icc 1 period, (if 0 ≤ diff i then diff i else 0)
    let losses := ∑ i in Finset.Icc 1 period, (if diff i < 0 then -diff i else 0)
    let avgGain := gains / (period : ℚ)
    let avgLoss := losses / (period : ℚ)
    let smoothed := (List.range' (period + 1) (values.length - (period + 1))).foldl
      (fun (st : ℚ × ℚ) i =>
        ((st.1 * ((period : ℚ) - 1) + (if 0 ≤ diff i then diff i else 0)) / (period : ℚ),
         (st.2 * ((period : ℚ) - 1) + (if diff i < 0 then -diff i else 0)) / (period : ℚ)))
      (avgGain, avgLoss)
    some (if smoothed.2 = 0 then 100 else 100 - 100 / (1 + smoothed.1 / smoothed.2))

/-- `_vwap(candles)`: volume-weighted average of the typical price, falling
back to the last close when the cumulative volume is not positive. -/
def vwap (candles : List Candle) : ℚ :=
  let cumPV := (candles.map (fun c => (c.high + c.low + c.close) / 3 * c.volume)).sum
  let cumVol := (candles.map Candle.volume).sum
  if 0 < cumVol then cumPV / cumVol else (candles.getLast?.getD dummyCandle).close

/-- `_linearRegSlope(values)`: ordinary least-squares slope over indices
`0, …, n-1`. -/
def linearRegSlope (values : List ℚ) : ℚ :=
  let n := (values.length : ℚ)
  let sumX := ∑ i in Finset.range values.length, (i : ℚ)
  let sumY := ∑ i in Finset.range values.length, values.getD i 0
  let sumXY := ∑ i in Finset.range values.length, (i : ℚ) * values.getD i 0
  let sumX2 := ∑ i in Finset.range values.length, (i : ℚ) * (i : ℚ)
  (n * sumXY - sumX * sumY) / (n * sumX2 - sumX * sumX)

/-- `_rSquared(values)`: coefficient of determination of the OLS fit, `0`
when the total sum of squares vanishes. -/
def rSquared (values : List ℚ) : ℚ :=
  let n := (values.length : ℚ)
  let slope := linearRegSlope values
  let meanY := values.sum / n
  let intercept := meanY - slope * (n - 1) / 2
  let ssRes := ∑ i in Finset.range values.length,
    (values.getD i 0 - (intercept + slope * (i : ℚ))) ^ 2
  let ssTot := ∑ i in Finset.range values.length, (values.getD i 0 - meanY) ^ 2
  if 0 < ssTot then 1 - ssRes / ssTot else 0

/-- `_smaCrossover(candles)` (SMA 10 and 30). -/
def smaCrossover (candles : List Candle) : Option Signal :=
  let closes := candles.map Candle.close
  let sma10 := sma closes 10
  let sma30 := sma closes 30
  if sma10.length < 2 ∨ sma30.length < 2 then none
  else
    let curr10 := sma10.getD (sma10.length - 1) 0
    let prev10 := sma10.getD (sma10.length - 2) 0
    let curr30 := sma30.getD (sma30.length - 1) 0
    let prev30 := sma30.getD (sma30.length - 2) 0
    if prev10 ≤ prev30 ∧ curr30 < curr10 then
      some ⟨Action.BUY, min ((curr10 - curr30) / curr30 * 1000) 100⟩
    else if prev30 ≤ prev10 ∧ curr10 < curr30 then
      some ⟨Action.SELL, min ((curr30 - curr10) / curr10 * 1000) 100⟩
    else if curr30 * 1.002 < curr10 then some ⟨Action.BUY, 40⟩
    else if curr10 < curr30 * 0.998 then some ⟨Action.SELL, 40⟩
    else some ⟨Action.HOLD, 10⟩

/-- `_rsiStrategy(candles)` (RSI 14). -/
def rsiStrategy (candles : List Candle) : Option Signal :=
  let closes := candles.map Candle.close
  match rsi closes 14 with
  | none => none
  | some r =>
    if r ≤ 25 then some ⟨Action.BUY, 90⟩
    else if r ≤ 30 then some ⟨Action.BUY, 70⟩
    else if 75 ≤ r then some ⟨Action.SELL, 90⟩
    else if 70 ≤ r then some ⟨Action.SELL, 70⟩
    else some ⟨Action.HOLD, 10⟩

/-- `_breakoutStrategy(candles)` (20-period high/low). -/
def breakoutStrategy (candles : List Candle) : Option Signal :=
  if candles.length < 21 then none
  else
    let recent := (candles.drop (candles.length - 21)).take 20
    let current := candles.getLast?.getD dummyCandle
    let high20 := jsMax (recent.map Candle.high)
    let low20 := jsMin (recent.map Candle.low)
    let range := high20 - low20
    if high20 < current.close then
      some ⟨Action.BUY, min ((current.close - high20) / range * 200) 100⟩
    else if current.close < low20 then
      some ⟨Action.SELL, min ((low20 - current.close) / range * 200) 100⟩
    else some ⟨Action.HOLD, 10⟩

/-- `_hftMomentum(candles)`: VWAP deviation + tick momentum + volume surge.
The JS `avgVol || 1` guard is the `if avgVol = 0 then 1 else avgVol`
denominator; `microPrice`/`microDev` are computed but unused in the source
and omitted here. -/
def hftMomentum (candles : List Candle) : Option Signal :=
  if candles.length < 30 then none
  else
    let recent := candles.drop (candles.length - 30)
    let current := recent.getLast?.getD dummyCandle
    let v := vwap recent
    let vwapDev := (current.close - v) / v * 100
    let last10 := recent.drop (recent.length - 10)
    let tickMomentum := ∑ i in Finset.range (last10.length - 1),
      ((last10.getD (i + 1) dummyCandle).close - (last10.getD i dummyCandle).close)
    let tickDir : Int := if 0 < tickMomentum then 1 else -1
    let avgVol := ((recent.dropLast.map Candle.volume).sum) / ((recent.length : ℚ) - 1)
    let volRat := current.volume / (if avgVol = 0 then 1 else avgVol)
    if vwapDev < -0.15 ∧ 0 < tickDir ∧ 1.3 < volRat then
      some ⟨Action.BUY, min (|vwapDev| * 200 + volRat * 10) 100⟩
    else if 0.15 < vwapDev ∧ tickDir < 0 ∧ 1.3 < volRat then
      some ⟨Action.SELL, min (|vwapDev| * 200 + volRat * 10) 100⟩
    else some ⟨Action.HOLD, 10⟩

/-- `_linearRegression(candles)`: rolling OLS over the last 50 and 20
closes. -/
def linearRegression (candles : List Candle) : Option Signal :=
  if candles.length < 50 then none
  else
    let closes := (candles.drop (candles.length - 50)).map Candle.close
    let shortSlope := linearRegSlope (closes.drop (closes.length - 20))
    let longSlope := linearRegSlope closes
    let avgPrice := closes.sum / (closes.length : ℚ)
    let shortSlopeNorm := shortSlope / avgPrice * 100
    let longSlopeNorm := longSlope / avgPrice * 100
    let rsq := rSquared (closes.drop (closes.length - 20))
    if 0.05 < shortSlopeNorm ∧ 0 < longSlopeNorm ∧ 0.6 < rsq then
      some ⟨Action.BUY, min (rsq * 100) 100⟩
    else if shortSlopeNorm < -0.05 ∧ longSlopeNorm < 0 ∧ 0.6 < rsq then
      some ⟨Action.SELL, min (rsq * 100) 100⟩
    else if 0.1 < shortSlopeNorm ∧ longSlopeNorm < -0.02 then
      some ⟨Action.SELL, min (|shortSlopeNorm| * 300) 80⟩
    else if shortSlopeNorm < -0.1 ∧ 0.02 < longSlopeNorm then
      some ⟨Action.BUY, min (|shortSlopeNorm| * 300) 80⟩
    else some ⟨Action.HOLD, 10⟩

/-- `_runStrategy(name, sym, candles)`: dispatch by strategy name with a
`null` default. -/
def runStrategy (name : String) (candles : List Candle) : Option Signal :=
  if name = "sma_crossover" then smaCrossover candles
  else if name = "rsi" then rsiStrategy candles
  else if name = "breakout" then breakoutStrategy candles
  else if name = "hft_momentum" then hftMomentum candles
  else if name = "linear_regression" then linearRegression candles
  else none

/-! ## Minimum-bar guards (C4, C5) -/

theorem sma_eq_nil {values : List ℚ} {period : Nat} (h : values.length < period) :
    sma values period = [] := by
  unfold sma
  rw [if_pos h]

theorem sma_length {values : List ℚ} {period : Nat} (h : ¬ values.length < period) :
    (sma values period).length = values.length - period + 1 := by
  unfold sma
  rw [if_neg h]
  simp

theorem smaCrossover_eq_none {cs : List Candle} (h : cs.length < 30) :
    smaCrossover cs = none := by
  have h30 : sma (cs.map Candle.close) 30 = [] :=
    sma_eq_nil (by simpa using h)
  simp [smaCrossover, h30]

theorem rsi_eq_none {values : List ℚ} {period : Nat} (h : values.length < period + 1) :
    rsi values period = none := by
  unfold rsi
  rw [if_pos h]

theorem rsi_isSome {values : List ℚ} {period : Nat} (h : ¬ values.length < period + 1) :
    (rsi values period).isSome = true := by
  unfold rsi
  rw [if_neg h]
  rfl

theorem rsiStrategy_eq_none {cs : List Candle} (h : cs.length < 15) :
    rsiStrategy cs = none := by
  have hr : rsi (cs.map Candle.close) 14 = none := rsi_eq_none (by simpa using h)
  simp [rsiStrategy, hr]

theorem breakoutStrategy_eq_none {cs : List Candle} (h : cs.length < 21) :
    breakoutStrategy cs = none := by
  unfold breakoutStrategy
  rw [if_pos h]

theorem hftMomentum_eq_none {cs : List Candle} (h : cs.length < 30) :
    hftMomentum cs = none := by
  unfold hftMomentum
  rw [if_pos h]

theorem linearRegression_eq_none {cs : List Candle} (h : cs.length < 50) :
    linearRegression cs = none := by
  unfold linearRegression
  rw [if_pos h]

/-- C4: below its minimum bar count (30 for `sma_crossover`, 15 for `rsi`,
21 for `breakout`, 30 for `hft_momentum`, 50 for `linear_regression`) every
evaluator returns no signal. -/
theorem c4_insufficient_history :
    ∀ p ∈ [("sma_crossover", 30), ("rsi", 15), ("breakout", 21),
      ("hft_momentum", 30), ("linear_regression", 50)],
    ∀ cs : List Candle, cs.length < p.2 → runStrategy p.1 cs = none := by
  intro p hp cs h
  fin_cases hp
  · simpa [runStrategy] using smaCrossover_eq_none h
  · simpa [runStrategy] using rsiStrategy_eq_none h
  · simpa [runStrategy] using breakoutStrategy_eq_none h
  · simpa [runStrategy] using hftMomentum_eq_none h
  · simpa [runStrategy] using linearRegression_eq_none h

/-- Witness for `c4_insufficient_history`. -/
theorem c4_insufficient_history_witness :
    runStrategy "breakout" [] = none :=
  c4_insufficient_history ("breakout", 21) (by simp) [] (by decide)

theorem smaCrossover_isSome {cs : List Candle} (h : 31 ≤ cs.length) :
    (smaCrossover cs).isSome = true := by
  have l10 : (sma (cs.map Candle.close) 10).length = (cs.map Candle.close).length - 10 + 1 :=
    sma_length (by simp; omega)
  have l30 : (sma (cs.map Candle.close) 30).length = (cs.map Candle.close).length - 30 + 1 :=
    sma_length (by simp; omega)
  rw [List.length_map] at l10 l30
  have hguard : ¬ ((sma (cs.map Candle.close) 10).length < 2 ∨
      (sma (cs.map Candle.close) 30).length < 2) := by
    rw [l10, l30]; omega
  simp only [smaCrossover]
  rw [if_neg hguard]
  split_ifs <;> rfl

theorem rsiStrategy_isSome {cs : List Candle} (h : 15 ≤ cs.length) :
    (rsiStrategy cs).isSome = true := by
  have hsome : (rsi (cs.map Candle.close) 14).isSome = true :=
    rsi_isSome (by simp; omega)
  obtain ⟨r, hr⟩ := Option.isSome_iff_exists.mp hsome
  simp only [rsiStrategy]
  rw [hr]
  dsimp only
  split_ifs <;> rfl

theorem breakoutStrategy_isSome {cs : List Candle} (h : 21 ≤ cs.length) :
    (breakoutStrategy cs).isSome = true := by
  simp only [breakoutStrategy]
  rw [if_neg (by omega)]
  split_ifs <;> rfl

theorem hftMomentum_isSome {cs : List Candle} (h : 30 ≤ cs.length) :
    (hftMomentum cs).isSome = true := by
  simp only [hftMomentum]
  rw [if_neg (by omega)]
  split_ifs <;> rfl

theorem linearRegression_isSome {cs : List Candle} (h : 50 ≤ cs.length) :
    (linearRegression cs).isSome = true := by
  simp only [linearRegression]
  rw [if_neg (by omega)]
  split_ifs <;> rfl

/-- C5, counterexample: a 30-candle history meets the claimed trend-cross
minimum of 30 bars, yet `_smaCrossover` returns no signal — the 30-bar SMA
has a single point, and the code requires two. -/
theorem c5_trend_cross_30_cex :
    (List.replicate 30 (⟨0, 1, 1, 1, 1, 1, true⟩ : Candle)).length = 30 ∧
    runStrategy "sma_crossover" (List.replicate 30 ⟨0, 1, 1, 1, 1, 1, true⟩) = none := by
  constructor
  · decide
  · decide

/-- C5, amended: every evaluator returns a signal once history reaches its
true minimum: 31 bars for trend-cross (two points of the 30-bar SMA need 31
closes, so a 30-bar history still returns no signal), 15 for RSI, 21 for
breakout, 30 for microstructure-momentum, 50 for regression-trend. -/
theorem c5_sufficient_history_amended :
    ∀ p ∈ [("sma_crossover", 31), ("rsi", 15), ("breakout", 21),
      ("hft_momentum", 30), ("linear_regression", 50)],
    ∀ cs : List Candle, p.2 ≤ cs.length → (runStrategy p.1 cs).isSome = true := by
  intro p hp cs h
  fin_cases hp
  · simpa [runStrategy] using smaCrossover_isSome h
  · simpa [runStrategy] using rsiStrategy_isSome h
  · simpa [runStrategy] using breakoutStrategy_isSome h
  · simpa [runStrategy] using hftMomentum_isSome h
  · simpa [runStrategy] using linearRegression_isSome h

/-- Witness for `c5_sufficient_history_amended`. -/
theorem c5_sufficient_history_amended_witness :
    (runStrategy "breakout" (List.replicate 21 (⟨0, 1, 1, 1, 1, 1, true⟩ : Candle))).isSome
      = true :=
  c5_sufficient_history_amended ("breakout", 21) (by simp) _
    (le_of_eq (List.length_replicate _ _).symm)

/-! ## Trend-cross crossover rule (C6) -/

/-- The SMA value `back` positions from the end of the `period`-bar SMA
sequence of the close prices: `back = 1` is `sma[sma.length - 1]` (the
current bar), `back = 2` the previous bar. -/
def smaAt (cs : List Candle) (period back : Nat) : ℚ :=
  (sma (cs.map Candle.close) period).getD ((sma (cs.map Candle.close) period).length - back) 0

/-- C6: with at least two points of both SMAs available, a fresh upward
cross of SMA(10) over SMA(30) yields BUY, and the symmetric downward cross
yields SELL. -/
theorem c6_trend_crossover (cs : List Candle)
    (h10 : 2 ≤ (sma (cs.map Candle.close) 10).length)
    (h30 : 2 ≤ (sma (cs.map Candle.close) 30).length) :
    (smaAt cs 10 2 ≤ smaAt cs 30 2 → smaAt cs 30 1 < smaAt cs 10 1 →
      (smaCrossover cs).map Signal.action = some Action.BUY) ∧
    (smaAt cs 30 2 ≤ smaAt cs 10 2 → smaAt cs 10 1 < smaAt cs 30 1 →
      (smaCrossover cs).map Signal.action = some Action.SELL) := by
  have hguard : ¬ ((sma (cs.map Candle.close) 10).length < 2 ∨
      (sma (cs.map Candle.close) 30).length < 2) := by omega
  constructor
  · intro hprev hcurr
    simp only [smaCrossover]
    rw [if_neg hguard, if_pos ⟨hprev, hcurr⟩]
    rfl
  · intro hprev hcurr
    simp only [smaCrossover]
    rw [if_neg hguard, if_neg (fun hb => absurd hb.2 (not_lt.mpr (le_of_lt hcurr))),
      if_pos ⟨hprev, hcurr⟩]
    rfl

/-- Witness for `c6_trend_crossover`: 30 closes at 1 then one at 2 (upward
cross, BUY); 30 closes at 2 then one at 1 (downward cross, SELL). -/
theorem c6_trend_crossover_witness :
    (smaCrossover (List.replicate 30 (⟨0, 1, 1, 1, 1, 1, true⟩ : Candle) ++
      [⟨1, 2, 2, 2, 2, 1, true⟩])).map Signal.action = some Action.BUY ∧
    (smaCrossover (List.replicate 30 (⟨0, 2, 2, 2, 2, 1, true⟩ : Candle) ++
      [⟨1, 1, 1, 1, 1, 1, true⟩])).map Signal.action = some Action.SELL := by
  constructor
  · exact (c6_trend_crossover _ (by decide!) (by decide!)).1 (by decide!) (by decide!)
  · exact (c6_trend_crossover _ (by decide!) (by decide!)).2 (by decide!) (by decide!)

/-! ## Breakout boundary (C7) -/

theorem foldl_max_le_init (l : List ℚ) (a : ℚ) : a ≤ l.foldl max a := by
  induction l generalizing a with
  | nil => exact le_rfl
  | cons b t ih => exact le_trans (le_max_left a b) (ih (max a b))

theorem le_foldl_max_of_mem {l : List ℚ} {x : ℚ} (h : x ∈ l) (a : ℚ) :
    x ≤ l.foldl max a := by
  induction l generalizing a with
  | nil => cases h
  | cons b t ih =>
    rcases List.mem_cons.mp h with rfl | h'
    · exact le_trans (le_max_right a x) (foldl_max_le_init t _)
    · exact ih h' _

theorem foldl_max_mem (l : List ℚ) (a : ℚ) : l.foldl max a = a ∨ l.foldl max a ∈ l := by
  induction l generalizing a with
  | nil => exact Or.inl rfl
  | cons b t ih =>
    rw [List.foldl_cons]
    rcases ih (max a b) with h | h
    · rcases max_choice a b with hm | hm
      · exact Or.inl (h.trans hm)
      · exact Or.inr (List.mem_cons.mpr (Or.inl (h.trans hm)))
    · exact Or.inr (List.mem_cons_of_mem _ h)

theorem foldl_min_init_le (l : List ℚ) (a : ℚ) : l.foldl min a ≤ a := by
  induction l generalizing a with
  | nil => exact le_rfl
  | cons b t ih => exact le_trans (ih (min a b)) (min_le_left a b)

theorem foldl_min_le_of_mem {l : List ℚ} {x : ℚ} (h : x ∈ l) (a : ℚ) :
    l.foldl min a ≤ x := by
  induction l generalizing a with
  | nil => cases h
  | cons b t ih =>
    rcases List.mem_cons.mp h with rfl | h'
    · exact le_trans (foldl_min_init_le t _) (min_le_right a x)
    · exact ih h' _

theorem foldl_min_mem (l : List ℚ) (a : ℚ) : l.foldl min a = a ∨ l.foldl min a ∈ l := by
  induction l generalizing a with
  | nil => exact Or.inl rfl
  | cons b t ih =>
    rw [List.foldl_cons]
    rcases ih (min a b) with h | h
    · rcases min_choice a b with hm | hm
      · exact Or.inl (h.trans hm)
      · exact Or.inr (List.mem_cons.mpr (Or.inl (h.trans hm)))
    · exact Or.inr (List.mem_cons_of_mem _ h)

theorem le_jsMax_of_mem {l : List ℚ} {x : ℚ} (h : x ∈ l) : x ≤ jsMax l := by
  cases l with
  | nil => cases h
  | cons b t =>
    rcases List.mem_cons.mp h with rfl | h'
    · exact foldl_max_le_init t x
    · exact le_foldl_max_of_mem h' b

theorem jsMax_mem {l : List ℚ} (h : l ≠ []) : jsMax l ∈ l := by
  cases l with
  | nil => exact absurd rfl h
  | cons b t =>
    rcases foldl_max_mem t b with h' | h'
    · exact List.mem_cons.mpr (Or.inl h')
    · exact List.mem_cons_of_mem _ h'

theorem jsMin_le_of_mem {l : List ℚ} {x : ℚ} (h : x ∈ l) : jsMin l ≤ x := by
  cases l with
  | nil => cases h
  | cons b t =>
    rcases List.mem_cons.mp h with rfl | h'
    · exact foldl_min_init_le t x
    · exact foldl_min_le_of_mem h' b

theorem jsMin_mem {l : List ℚ} (h : l ≠ []) : jsMin l ∈ l := by
  cases l with
  | nil => exact absurd rfl h
  | cons b t =>
    rcases foldl_min_mem t b with h' | h'
    · exact List.mem_cons.mpr (Or.inl h')
    · exact List.mem_cons_of_mem _ h'

/-- The 20-candle window preceding the current candle,
`candles.slice(-21, -1)` in `_breakoutStrategy`. -/
def recentWindow (cs : List Candle) : List Candle :=
  (cs.drop (cs.length - 21)).take 20

/-- The latest candle, `candles[candles.length - 1]`. -/
def currentCandle (cs : List Candle) : Candle :=
  cs.getLast?.getD dummyCandle

/-- C7, counterexample: with 20 malformed candles (each `high = 1`,
`low = 2`) and a current close of 1 — exactly the prior 20-bar high — the
evaluator returns SELL, not HOLD, because the close is below the (larger)
prior 20-bar low. -/
theorem c7_breakout_equal_close_cex :
    (currentCandle (List.replicate 20 (⟨0, 1, 1, 2, 1, 0, true⟩ : Candle) ++
        [⟨1, 1, 1, 2, 1, 0, true⟩])).close =
      jsMax ((recentWindow (List.replicate 20 (⟨0, 1, 1, 2, 1, 0, true⟩ : Candle) ++
        [⟨1, 1, 1, 2, 1, 0, true⟩])).map Candle.high) ∧
    (breakoutStrategy (List.replicate 20 (⟨0, 1, 1, 2, 1, 0, true⟩ : Candle) ++
        [⟨1, 1, 1, 2, 1, 0, true⟩])).map Signal.action = some Action.SELL := by
  constructor
  · decide!
  · decide!

/-- C7, amended: for histories of at least 21 candles in which every
candle's low is at most its high, a close exactly equal to the prior 20-bar
high yields HOLD; unconditionally under those hypotheses, BUY is returned
iff the close strictly exceeds the prior 20-bar high, and SELL iff the
close is strictly below the prior 20-bar low. -/
theorem c7_breakout_strict_amended (cs : List Candle) (hlen : 21 ≤ cs.length)
    (hwf : ∀ c ∈ cs, c.low ≤ c.high) :
    ((currentCandle cs).close = jsMax ((recentWindow cs).map Candle.high) →
      (breakoutStrategy cs).map Signal.action = some Action.HOLD) ∧
    ((breakoutStrategy cs).map Signal.action = some Action.BUY ↔
      jsMax ((recentWindow cs).map Candle.high) < (currentCandle cs).close) ∧
    ((breakoutStrategy cs).map Signal.action = some Action.SELL ↔
      (currentCandle cs).close < jsMin ((recentWindow cs).map Candle.low)) := by
  have hne : recentWindow cs ≠ [] := by
    refine List.ne_nil_of_length_pos ?_
    simp only [recentWindow, List.length_take, List.length_drop]
    omega
  have hsub : ∀ x ∈ recentWindow cs, x ∈ cs := fun x hx =>
    List.mem_of_mem_drop (List.mem_of_mem_take hx)
  have hlh : jsMin ((recentWindow cs).map Candle.low) ≤
      jsMax ((recentWindow cs).map Candle.high) := by
    obtain ⟨c0, hc0, he⟩ := List.mem_map.mp
      (jsMin_mem (l := (recentWindow cs).map Candle.low) (by simpa using hne))
    calc jsMin ((recentWindow cs).map Candle.low) = c0.low := he.symm
      _ ≤ c0.high := hwf c0 (hsub c0 hc0)
      _ ≤ jsMax ((recentWindow cs).map Candle.high) :=
          le_jsMax_of_mem (List.mem_map_of_mem Candle.high hc0)
  have hb : breakoutStrategy cs =
      (if jsMax ((recentWindow cs).map Candle.high) < (currentCandle cs).close then
        some ⟨Action.BUY, min (((currentCandle cs).close -
          jsMax ((recentWindow cs).map Candle.high)) /
          (jsMax ((recentWindow cs).map Candle.high) -
            jsMin ((recentWindow cs).map Candle.low)) * 200) 100⟩
      else if (currentCandle cs).close < jsMin ((recentWindow cs).map Candle.low) then
        some ⟨Action.SELL, min ((jsMin ((recentWindow cs).map Candle.low) -
          (currentCandle cs).close) /
          (jsMax ((recentWindow cs).map Candle.high) -
            jsMin ((recentWindow cs).map Candle.low)) * 200) 100⟩
      else some ⟨Action.HOLD, 10⟩) := by
    simp only [breakoutStrategy, recentWindow, currentCandle]
    rw [if_neg (by omega)]
  rw [hb]
  split_ifs with h1 h2
  · refine ⟨fun heq => absurd h1 (by rw [heq]; exact lt_irrefl _), by simp [h1], ?_⟩
    simp only [Option.map_some']
    constructor
    · intro hcon; cases hcon
    · intro hlow; exact absurd (lt_trans h1 (lt_of_lt_of_le hlow hlh)) (lt_irrefl _)
  · refine ⟨fun heq => absurd (lt_of_lt_of_le h2 hlh) (by rw [heq]; exact lt_irrefl _),
      ?_, by simp [h2]⟩
    simp only [Option.map_some']
    constructor
    · intro hcon; cases hcon
    · intro hhigh; exact absurd hhigh h1
  · exact ⟨fun _ => rfl, by simp [h1], by simp [h2]⟩

/-- Witness for `c7_breakout_strict_amended`: 20 well-formed candles with
high 2 and low 1, then a close exactly at the prior high 2 — HOLD. -/
theorem c7_breakout_strict_amended_witness :
    (breakoutStrategy (List.replicate 20 (⟨0, 1, 2, 1, 1, 0, true⟩ : Candle) ++
        [⟨1, 2, 2, 2, 2, 0, true⟩])).map Signal.action = some Action.HOLD :=
  (c7_breakout_strict_amended _ (by decide) (by decide)).1 (by decide!)

/-! ## Microstructure-momentum totality under zero volume (C10)

`ℚ` has no `Infinity`/`NaN`, so "no division by zero" is expressed by the
guards themselves: `_vwap` only divides when the cumulative volume is
positive (otherwise it returns the last close), and `_hftMomentum` divides
the current volume by 1 when the trailing average volume is zero. -/

/-- C10: the hft_momentum evaluator is total on histories of at least 30
candles, and on an all-zero-volume history the `_vwap` fallback returns the
last close of the window, the VWAP deviation is therefore zero, and the
evaluator returns the well-defined HOLD signal of strength 10. -/
theorem c10_hft_total_zero_volume :
    (∀ cs : List Candle, 30 ≤ cs.length → (hftMomentum cs).isSome = true) ∧
    (∀ cs : List Candle, 30 ≤ cs.length → (∀ c ∈ cs, c.volume = 0) →
      vwap (cs.drop (cs.length - 30)) =
        ((cs.drop (cs.length - 30)).getLast?.getD dummyCandle).close ∧
      hftMomentum cs = some ⟨Action.HOLD, 10⟩) := by
  constructor
  · intro cs h
    exact hftMomentum_isSome h
  · intro cs h hz
    have hdrop : ∀ c ∈ cs.drop (cs.length - 30), c.volume = 0 := fun c hc =>
      hz c (List.mem_of_mem_drop hc)
    have hsum : ((cs.drop (cs.length - 30)).map Candle.volume).sum = 0 :=
      List.sum_eq_zero (fun x hx => by
        obtain ⟨c, hc, rfl⟩ := List.mem_map.mp hx
        exact hdrop c hc)
    have hv : vwap (cs.drop (cs.length - 30)) =
        ((cs.drop (cs.length - 30)).getLast?.getD dummyCandle).close := by
      simp only [vwap]
      rw [hsum, if_neg (lt_irrefl 0)]
    refine ⟨hv, ?_⟩
    simp only [hftMomentum]
    rw [if_neg (by omega), hv]
    rw [if_neg ?h1, if_neg ?h2]
    case h1 =>
      intro hcon
      have := hcon.1
      rw [sub_self, zero_div, zero_mul] at this
      norm_num at this
    case h2 =>
      intro hcon
      have := hcon.1
      rw [sub_self, zero_div, zero_mul] at this
      norm_num at this

/-- Witness for `c10_hft_total_zero_volume` on 30 zero-volume candles. -/
theorem c10_hft_total_zero_volume_witness :
    (hftMomentum (List.replicate 30 (⟨0, 1, 1, 1, 1, 0, true⟩ : Candle))).isSome = true ∧
    hftMomentum (List.replicate 30 (⟨0, 1, 1, 1, 1, 0, true⟩ : Candle)) =
      some ⟨Action.HOLD, 10⟩ := by
  constructor
  · exact c10_hft_total_zero_volume.1 _ (le_of_eq (List.length_replicate _ _).symm)
  · exact (c10_hft_total_zero_volume.2 _ (le_of_eq (List.length_replicate _ _).symm)
      (fun c hc => by rw [List.eq_of_mem_replicate hc])).2

/-! ## Unsubscribe (C9)

`unsubscribe(symbol)` (lines 97–107) closes and deletes the upstream
socket if present and unconditionally deletes the candle history, the
active-strategy set, and the last-signal table of the normalized symbol.
The engine's per-symbol maps are modelled as functions from symbol strings
to `Option`; the socket handle's identity is irrelevant to the state, so
sockets are `Option Unit`. -/

/-- The per-symbol state of `LiveSignalEngine` touched by `unsubscribe`
(the viewer-client set only receives a broadcast and is omitted). -/
structure EngineState where
  binanceSockets : String → Option Unit
  candles : String → Option (List Candle)
  activeStrategies : String → Option (List String)
  lastSignals : String → Option (String → Option Signal)

/-- `'BTC/USDT'.toLowerCase().replace('/', '')`: JS `replace` with a string
pattern replaces only the first occurrence. -/
def removeFirstSlash : List Char → List Char
  | [] => []
  | c :: cs => if c = '/' then cs else c :: removeFirstSlash cs

def normalizeSymbol (s : String) : String :=
  String.mk (removeFirstSlash s.toLower.toList)

/-- `unsubscribe(symbol)`: delete all four per-symbol entries of the
normalized symbol (the socket only if present, which is the same map). -/
def unsubscribe (st : EngineState) (symbol : String) : EngineState :=
  { binanceSockets := fun s => if s = normalizeSymbol symbol then none else st.binanceSockets s
    candles := fun s => if s = normalizeSymbol symbol then none else st.candles s
    activeStrategies := fun s =>
      if s = normalizeSymbol symbol then none else st.activeStrategies s
    lastSignals := fun s => if s = normalizeSymbol symbol then none else st.lastSignals s }

/-- C9: after `unsubscribe`, the normalized symbol has no candle history,
no strategy set, no last-signal entries, and no socket handle; every other
symbol's four entries are unchanged; and `unsubscribe` is total and a no-op
on a state where the symbol holds no entries. -/
theorem c9_unsubscribe_frame (st : EngineState) (symbol : String) :
    (unsubscribe st symbol).candles (normalizeSymbol symbol) = none ∧
    (unsubscribe st symbol).activeStrategies (normalizeSymbol symbol) = none ∧
    (unsubscribe st symbol).lastSignals (normalizeSymbol symbol) = none ∧
    (unsubscribe st symbol).binanceSockets (normalizeSymbol symbol) = none ∧
    (∀ s, s ≠ normalizeSymbol symbol →
      (unsubscribe st symbol).candles s = st.candles s ∧
      (unsubscribe st symbol).activeStrategies s = st.activeStrategies s ∧
      (unsubscribe st symbol).lastSignals s = st.lastSignals s ∧
      (unsubscribe st symbol).binanceSockets s = st.binanceSockets s) ∧
    (st.candles (normalizeSymbol symbol) = none →
      st.activeStrategies (normalizeSymbol symbol) = none →
      st.lastSignals (normalizeSymbol symbol) = none →
      st.binanceSockets (normalizeSymbol symbol) = none →
      unsubscribe st symbol = st) := by
  refine ⟨by simp [unsubscribe], by simp [unsubscribe], by simp [unsubscribe],
    by simp [unsubscribe], ?_, ?_⟩
  · intro s hs
    refine ⟨?_, ?_, ?_, ?_⟩ <;> simp [unsubscribe, hs]
  · intro h1 h2 h3 h4
    have fieldEq : ∀ {α : Type} (f : String → Option α),
        f (normalizeSymbol symbol) = none →
        (fun s => if s = normalizeSymbol symbol then none else f s) = f := by
      intro α f hf
      funext s
      by_cases hs : s = normalizeSymbol symbol
      · rw [if_pos hs, hs, hf]
      · rw [if_neg hs]
    cases st with
    | mk sockets cnds strats sigs =>
      simp only [unsubscribe]
      congr 1
      · exact fieldEq sockets h4
      · exact fieldEq cnds h1
      · exact fieldEq strats h2
      · exact fieldEq sigs h3

/-- The engine state with no subscriptions. -/
def emptyEngineState : EngineState :=
  ⟨fun _ => none, fun _ => none, fun _ => none, fun _ => none⟩

/-- Witness for `c9_unsubscribe_frame`: unsubscribing "BTC/USDT" clears the
slot "btcusdt", leaves "ethusdt" alone, and is a no-op on the empty state. -/
theorem c9_unsubscribe_frame_witness :
    (unsubscribe emptyEngineState "BTC/USDT").candles "btcusdt" = none ∧
    (unsubscribe emptyEngineState "BTC/USDT").candles "ethusdt" =
      emptyEngineState.candles "ethusdt" ∧
    unsubscribe emptyEngineState "BTC/USDT" = emptyEngineState := by
  have hn : normalizeSymbol "BTC/USDT" = "btcusdt" := by decide!
  refine ⟨?_, ?_, ?_⟩
  · have h := (c9_unsubscribe_frame emptyEngineState "BTC/USDT").1
    rwa [hn] at h
  · exact ((c9_unsubscribe_frame emptyEngineState "BTC/USDT").2.2.2.2.1 "ethusdt"
      (by rw [hn]; decide)).1
  · exact (c9_unsubscribe_frame emptyEngineState "BTC/USDT").2.2.2.2.2 rfl rfl rfl rfl

/-! ## Strength bounds (C8) -/

theorem getD_mem_q {l : List ℚ} {i : Nat} (h : i < l.length) : l.getD i 0 ∈ l := by
  rw [List.getD_eq_getElem l 0 h]
  exact List.getElem_mem h

theorem getLast?_getD_mem {l : List Candle} (h : l ≠ []) :
    l.getLast?.getD dummyCandle ∈ l := by
  rw [List.getLast?_eq_getLast_of_ne_nil h, Option.getD_some]
  exact List.getLast_mem h

/-- Every entry of `_sma(values, period)` is the average of a nonempty
window of `values`, hence positive when all values are. -/
theorem sma_mem_pos {values : List ℚ} {period : Nat} (hp : 0 < period)
    (hv : ∀ v ∈ values, 0 < v) {x : ℚ} (hx : x ∈ sma values period) : 0 < x := by
  unfold sma at hx
  split at hx
  · cases hx
  · next hlen =>
    obtain ⟨j, hj, rfl⟩ := List.mem_map.mp hx
    have hjlen : j < values.length - period + 1 := List.mem_range.mp hj
    have hwlen : ((values.drop j).take period).length = period := by
      rw [List.length_take, List.length_drop]
      omega
    have hpos : 0 < ((values.drop j).take period).sum := by
      apply List.sum_pos
      · intro v hv'
        exact hv v (List.mem_of_mem_drop (List.mem_of_mem_take hv'))
      · intro hnil
        rw [hnil] at hwlen
        simp at hwlen
        omega
    exact div_pos hpos (by exact_mod_cast hp)

theorem smaCrossover_strength {cs : List Candle}
    (hv : ∀ c ∈ cs, 0 < c.close) {s : Signal}
    (hs : smaCrossover cs = some s) : 0 ≤ s.strength ∧ s.strength ≤ 100 := by
  have hvm : ∀ v ∈ cs.map Candle.close, 0 < v := by
    intro v hv'
    obtain ⟨c, hc, rfl⟩ := List.mem_map.mp hv'
    exact hv c hc
  simp only [smaCrossover] at hs
  split at hs
  · cases hs
  · next hguard =>
    push_neg at hguard
    obtain ⟨hl10, hl30⟩ := hguard
    have h30pos : 0 < (sma (cs.map Candle.close) 30).getD
        ((sma (cs.map Candle.close) 30).length - 1) 0 :=
      sma_mem_pos (by norm_num) hvm (getD_mem_q (by omega))
    have h10pos : 0 < (sma (cs.map Candle.close) 10).getD
        ((sma (cs.map Candle.close) 10).length - 1) 0 :=
      sma_mem_pos (by norm_num) hvm (getD_mem_q (by omega))
    split_ifs at hs with h1 h2 h3 h4 <;>
      (injection hs with hx; subst hx)
    · refine ⟨le_min ?_ (by norm_num), min_le_right _ _⟩
      have hlt := h1.2
      exact mul_nonneg (div_nonneg (by linarith) h30pos.le) (by norm_num)
    · refine ⟨le_min ?_ (by norm_num), min_le_right _ _⟩
      have hlt := h2.2
      exact mul_nonneg (div_nonneg (by linarith) h10pos.le) (by norm_num)
    · exact ⟨by norm_num, by norm_num⟩
    · exact ⟨by norm_num, by norm_num⟩
    · exact ⟨by norm_num, by norm_num⟩

theorem rsiStrategy_strength {cs : List Candle} {s : Signal}
    (hs : rsiStrategy cs = some s) : 0 ≤ s.strength ∧ s.strength ≤ 100 := by
  simp only [rsiStrategy] at hs
  rcases hr : rsi (cs.map Candle.close) 14 with _ | r <;> rw [hr] at hs
  · cases hs
  · dsimp only at hs
    split_ifs at hs <;> (injection hs with hx; subst hx) <;>
      exact ⟨by norm_num, by norm_num⟩

/-- With well-formed candles (`low ≤ high`), the 20-bar window's minimum
low is at most its maximum high. -/
theorem low20_le_high20 {cs : List Candle} (hlen : 21 ≤ cs.length)
    (hwf : ∀ c ∈ cs, c.low ≤ c.high) :
    jsMin (((cs.drop (cs.length - 21)).take 20).map Candle.low) ≤
      jsMax (((cs.drop (cs.length - 21)).take 20).map Candle.high) := by
  have hne : (cs.drop (cs.length - 21)).take 20 ≠ [] := by
    refine List.ne_nil_of_length_pos ?_
    rw [List.length_take, List.length_drop]
    omega
  obtain ⟨c0, hc0, he⟩ := List.mem_map.mp
    (jsMin_mem (l := ((cs.drop (cs.length - 21)).take 20).map Candle.low)
      (by simpa using hne))
  calc jsMin (((cs.drop (cs.length - 21)).take 20).map Candle.low) = c0.low := he.symm
    _ ≤ c0.high := hwf c0 (List.mem_of_mem_drop (List.mem_of_mem_take hc0))
    _ ≤ jsMax (((cs.drop (cs.length - 21)).take 20).map Candle.high) :=
        le_jsMax_of_mem (List.mem_map_of_mem Candle.high hc0)

theorem breakoutStrategy_strength {cs : List Candle}
    (hwf : ∀ c ∈ cs, c.low ≤ c.high) {s : Signal}
    (hs : breakoutStrategy cs = some s) : 0 ≤ s.strength ∧ s.strength ≤ 100 := by
  simp only [breakoutStrategy] at hs
  split at hs
  · cases hs
  · next hlen =>
    have hlh := low20_le_high20 (by omega) hwf
    split_ifs at hs with h1 h2 <;> (injection hs with hx; subst hx)
    · refine ⟨le_min ?_ (by norm_num), min_le_right _ _⟩
      rcases eq_or_lt_of_le hlh with heq | hlt
      · have hr0 : jsMax (((cs.drop (cs.length - 21)).take 20).map Candle.high) -
            jsMin (((cs.drop (cs.length - 21)).take 20).map Candle.low) = 0 := by
          linarith
        rw [hr0, div_zero, zero_mul]
      · exact mul_nonneg (div_nonneg (by linarith) (by linarith)) (by norm_num)
    · refine ⟨le_min ?_ (by norm_num), min_le_right _ _⟩
      rcases eq_or_lt_of_le hlh with heq | hlt
      · have hr0 : jsMax (((cs.drop (cs.length - 21)).take 20).map Candle.high) -
            jsMin (((cs.drop (cs.length - 21)).take 20).map Candle.low) = 0 := by
          linarith
        rw [hr0, div_zero, zero_mul]
      · exact mul_nonneg (div_nonneg (by linarith) (by linarith)) (by norm_num)
    · exact ⟨by norm_num, by norm_num⟩

set_option maxHeartbeats 1000000 in
theorem hftMomentum_strength {cs : List Candle}
    (hvol : ∀ c ∈ cs, 0 ≤ c.volume) {s : Signal}
    (hs : hftMomentum cs = some s) : 0 ≤ s.strength ∧ s.strength ≤ 100 := by
  simp only [hftMomentum] at hs
  split at hs
  · cases hs
  · next hlen =>
    have hrne : cs.drop (cs.length - 30) ≠ [] := by
      refine List.ne_nil_of_length_pos ?_
      rw [List.length_drop]
      omega
    have hcur : (cs.drop (cs.length - 30)).getLast?.getD dummyCandle ∈ cs :=
      List.mem_of_mem_drop (getLast?_getD_mem hrne)
    have hcv : 0 ≤ ((cs.drop (cs.length - 30)).getLast?.getD dummyCandle).volume :=
      hvol _ hcur
    have havg : 0 ≤ (((cs.drop (cs.length - 30)).dropLast.map Candle.volume).sum) /
        (((cs.drop (cs.length - 30)).length : ℚ) - 1) := by
      apply div_nonneg
      · apply List.sum_nonneg
        intro x hx
        obtain ⟨c, hc, rfl⟩ := List.mem_map.mp hx
        exact hvol c (List.mem_of_mem_drop (List.dropLast_subset _ hc))
      · rw [List.length_drop]
        have h30 : cs.length - (cs.length - 30) = 30 := by omega
        rw [h30]
        norm_num
    by_cases hz : (((cs.drop (cs.length - 30)).dropLast.map Candle.volume).sum) /
        (((cs.drop (cs.length - 30)).length : ℚ) - 1) = 0
    · rw [if_pos hz] at hs
      have hvr1 : 0 ≤ ((cs.drop (cs.length - 30)).getLast?.getD dummyCandle).volume /
          (1 : ℚ) := div_nonneg hcv zero_le_one
      split_ifs at hs <;> (injection hs with hx; subst hx) <;>
        first
        | exact ⟨le_min (add_nonneg (mul_nonneg (abs_nonneg _) (by norm_num))
            (mul_nonneg hvr1 (by norm_num))) (by norm_num), min_le_right _ _⟩
        | exact ⟨by norm_num, by norm_num⟩
    · rw [if_neg hz] at hs
      have hvr2 : 0 ≤ ((cs.drop (cs.length - 30)).getLast?.getD dummyCandle).volume /
          ((((cs.drop (cs.length - 30)).dropLast.map Candle.volume).sum) /
            (((cs.drop (cs.length - 30)).length : ℚ) - 1)) :=
        div_nonneg hcv havg
      split_ifs at hs <;> (injection hs with hx; subst hx) <;>
        first
        | exact ⟨le_min (add_nonneg (mul_nonneg (abs_nonneg _) (by norm_num))
            (mul_nonneg hvr2 (by norm_num))) (by norm_num), min_le_right _ _⟩
        | exact ⟨by norm_num, by norm_num⟩

/-! ### Ordinary least squares: the residual sum of squares of the fitted
line never exceeds the total sum of squares, so `_rSquared` is nonnegative. -/

theorem sum_range_cast (n : Nat) :
    (∑ i in Finset.range n, (i : ℚ)) = n * ((n : ℚ) - 1) / 2 := by
  induction n with
  | zero => simp
  | succ k ih =>
    rw [Finset.sum_range_succ, ih]
    push_cast
    ring

theorem sum_sq_affine (values : List ℚ) (μ b m c : ℚ) (hc : c = μ - b * m) :
    ∑ i in Finset.range values.length, (values.getD i 0 - (c + b * (i : ℚ))) ^ 2 =
      (∑ i in Finset.range values.length, (values.getD i 0 - μ) ^ 2)
        - 2 * b * (∑ i in Finset.range values.length,
            (values.getD i 0 - μ) * ((i : ℚ) - m))
        + b ^ 2 * (∑ i in Finset.range values.length, ((i : ℚ) - m) ^ 2) := by
  subst hc
  rw [Finset.sum_congr rfl (g := fun i =>
    (values.getD i 0 - μ) ^ 2 - 2 * b * ((values.getD i 0 - μ) * ((i : ℚ) - m))
      + b ^ 2 * ((i : ℚ) - m) ^ 2) (fun i _ => by ring)]
  rw [Finset.sum_add_distrib, Finset.sum_sub_distrib, ← Finset.mul_sum, ← Finset.mul_sum]

theorem sum_mul_shift (values : List ℚ) (μ m : ℚ) :
    ∑ i in Finset.range values.length, (values.getD i 0 - μ) * ((i : ℚ) - m) =
      (∑ i in Finset.range values.length, (i : ℚ) * values.getD i 0)
        - m * (∑ i in Finset.range values.length, values.getD i 0)
        - μ * (∑ i in Finset.range values.length, (i : ℚ))
        + values.length * (μ * m) := by
  rw [Finset.sum_congr rfl (g := fun (i : ℕ) =>
    (i : ℚ) * values.getD i 0 - m * values.getD i 0 - μ * (i : ℚ) + μ * m) (fun i _ => by ring)]
  rw [Finset.sum_add_distrib, Finset.sum_sub_distrib, Finset.sum_sub_distrib,
    ← Finset.mul_sum, ← Finset.mul_sum, Finset.sum_const, Finset.card_range,
    nsmul_eq_mul]

theorem sum_sq_shift (values : List ℚ) (m : ℚ) :
    ∑ i in Finset.range values.length, ((i : ℚ) - m) ^ 2 =
      (∑ i in Finset.range values.length, (i : ℚ) * (i : ℚ))
        - 2 * m * (∑ i in Finset.range values.length, (i : ℚ))
        + values.length * (m * m) := by
  rw [Finset.sum_congr rfl (g := fun (i : ℕ) =>
    (i : ℚ) * (i : ℚ) - 2 * m * (i : ℚ) + m * m) (fun i _ => by ring)]
  rw [Finset.sum_add_distrib, Finset.sum_sub_distrib, ← Finset.mul_sum,
    Finset.sum_const, Finset.card_range, nsmul_eq_mul]

theorem rsq_core (vs : List ℚ) (h2 : 2 ≤ vs.length) :
    (∑ i in Finset.range vs.length, (vs.getD i 0 -
      (vs.sum / (vs.length : ℚ) - linearRegSlope vs * ((vs.length : ℚ) - 1) / 2
        + linearRegSlope vs * (i : ℚ))) ^ 2)
    ≤ ∑ i in Finset.range vs.length, (vs.getD i 0 - vs.sum / (vs.length : ℚ)) ^ 2 := by
  have hN2 : (2 : ℚ) ≤ (vs.length : ℚ) := by exact_mod_cast h2
  have hNne : ((vs.length : ℚ)) ≠ 0 := by linarith
  have hmpos : 0 < ((vs.length : ℚ) - 1) / 2 := by linarith
  have key := sum_sq_affine vs (vs.sum / (vs.length : ℚ)) (linearRegSlope vs)
    (((vs.length : ℚ) - 1) / 2)
    (vs.sum / (vs.length : ℚ) - linearRegSlope vs * ((vs.length : ℚ) - 1) / 2)
    (by ring)
  rw [key]
  set S : ℚ := ∑ i in Finset.range vs.length,
    (vs.getD i 0 - vs.sum / (vs.length : ℚ)) * ((i : ℚ) - ((vs.length : ℚ) - 1) / 2) with hS0
  set Q : ℚ := ∑ i in Finset.range vs.length,
    ((i : ℚ) - ((vs.length : ℚ) - 1) / 2) ^ 2 with hQ0
  have hsumX : (∑ i in Finset.range vs.length, (i : ℚ)) =
      (vs.length : ℚ) * (((vs.length : ℚ) - 1) / 2) := by
    rw [sum_range_cast]; ring
  have hS : S = (∑ i in Finset.range vs.length, (i : ℚ) * vs.getD i 0)
      - (((vs.length : ℚ) - 1) / 2) * (∑ i in Finset.range vs.length, vs.getD i 0) := by
    rw [hS0, sum_mul_shift, hsumX]; ring
  have hQ : Q = (∑ i in Finset.range vs.length, (i : ℚ) * (i : ℚ))
      - (vs.length : ℚ) * ((((vs.length : ℚ) - 1) / 2) * (((vs.length : ℚ) - 1) / 2)) := by
    rw [hQ0, sum_sq_shift, hsumX]; ring
  have hQpos : 0 < Q := by
    rw [hQ0]
    apply Finset.sum_pos'
    · intro i _
      positivity
    · refine ⟨0, Finset.mem_range.mpr (by omega), ?_⟩
      have h0 : ((0 : ℕ) : ℚ) - ((vs.length : ℚ) - 1) / 2 = -(((vs.length : ℚ) - 1) / 2) := by
        norm_num
      rw [h0, neg_sq]
      exact pow_pos hmpos 2
  have hb : linearRegSlope vs = S / Q := by
    simp only [linearRegSlope]
    have hnum : (vs.length : ℚ) * (∑ i in Finset.range vs.length, (i : ℚ) * vs.getD i 0)
        - (∑ i in Finset.range vs.length, (i : ℚ)) *
          (∑ i in Finset.range vs.length, vs.getD i 0) = (vs.length : ℚ) * S := by
      rw [hsumX, hS]; ring
    have hden : (vs.length : ℚ) * (∑ i in Finset.range vs.length, (i : ℚ) * (i : ℚ))
        - (∑ i in Finset.range vs.length, (i : ℚ)) *
          (∑ i in Finset.range vs.length, (i : ℚ)) = (vs.length : ℚ) * Q := by
      rw [hsumX, hQ]; ring
    rw [hnum, hden, mul_div_mul_left S Q hNne]
  rw [hb]
  have hQne : Q ≠ 0 := ne_of_gt hQpos
  have hrw : (∑ i in Finset.range vs.length, (vs.getD i 0 - vs.sum / (vs.length : ℚ)) ^ 2)
      - 2 * (S / Q) * S + (S / Q) ^ 2 * Q =
      (∑ i in Finset.range vs.length, (vs.getD i 0 - vs.sum / (vs.length : ℚ)) ^ 2)
        - S ^ 2 / Q := by
    field_simp
    ring
  rw [hrw]
  have hnn : 0 ≤ S ^ 2 / Q := div_nonneg (sq_nonneg S) hQpos.le
  linarith

theorem rSquared_nonneg (values : List ℚ) : 0 ≤ rSquared values := by
  match values with
  | [] => simp [rSquared]
  | [a] => norm_num [rSquared, Finset.sum_range_one]
  | a :: b' :: t =>
    simp only [rSquared]
    split
    case isFalse => exact le_rfl
    case isTrue hTot =>
      rw [sub_nonneg]
      exact (div_le_one hTot).mpr (rsq_core (a :: b' :: t) (by simp))

set_option maxHeartbeats 1000000 in
theorem linearRegression_strength {cs : List Candle} {s : Signal}
    (hs : linearRegression cs = some s) : 0 ≤ s.strength ∧ s.strength ≤ 100 := by
  simp only [linearRegression] at hs
  split at hs
  · cases hs
  · next hlen =>
    have hrsq : 0 ≤ rSquared (((cs.drop (cs.length - 50)).map Candle.close).drop
        (((cs.drop (cs.length - 50)).map Candle.close).length - 20)) := rSquared_nonneg _
    split_ifs at hs <;> (injection hs with hx; subst hx)
    · exact ⟨le_min (mul_nonneg hrsq (by norm_num)) (by norm_num), min_le_right _ _⟩
    · exact ⟨le_min (mul_nonneg hrsq (by norm_num)) (by norm_num), min_le_right _ _⟩
    · exact ⟨le_min (mul_nonneg (abs_nonneg _) (by norm_num)) (by norm_num),
        le_trans (min_le_right _ _) (by norm_num)⟩
    · exact ⟨le_min (mul_nonneg (abs_nonneg _) (by norm_num)) (by norm_num),
        le_trans (min_le_right _ _) (by norm_num)⟩
    · exact ⟨by norm_num, by norm_num⟩

/-- C8, counterexample: 21 candles with strictly positive prices and
nonnegative volumes (but malformed `high < low`) drive the breakout
strength to −300, outside [0, 100]: the 20-bar range `high20 − low20` is
negative, flipping the sign of the overshoot quotient. -/
theorem c8_strength_range_cex :
    breakoutStrategy (List.replicate 20 (⟨0, 1, 1, 2, 1, 0, true⟩ : Candle) ++
      [⟨1, 1, 1, 2, 1/2, 0, true⟩]) = some ⟨Action.SELL, -300⟩ ∧
    ((-300 : ℚ) < 0) := by
  constructor
  · decide!
  · norm_num

/-- C8, amended: for candles with strictly positive prices, nonnegative
volumes, and `low ≤ high` (well-formed bars), every signal any of the five
evaluators returns carries a strength in [0, 100]. -/
theorem c8_strength_range_amended :
    ∀ p ∈ [("sma_crossover", 30), ("rsi", 15), ("breakout", 21),
      ("hft_momentum", 30), ("linear_regression", 50)],
    ∀ cs : List Candle,
    (∀ c ∈ cs, 0 < c.open_ ∧ 0 < c.high ∧ 0 < c.low ∧ 0 < c.close ∧
      0 ≤ c.volume ∧ c.low ≤ c.high) →
    p.2 ≤ cs.length →
    ∀ s, runStrategy p.1 cs = some s → 0 ≤ s.strength ∧ s.strength ≤ 100 := by
  intro p hp cs hw _ s hs
  fin_cases hp
  · exact smaCrossover_strength (fun c hc => (hw c hc).2.2.2.1)
      (by simpa [runStrategy] using hs)
  · exact rsiStrategy_strength (by simpa [runStrategy] using hs)
  · exact breakoutStrategy_strength (fun c hc => (hw c hc).2.2.2.2.2)
      (by simpa [runStrategy] using hs)
  · exact hftMomentum_strength (fun c hc => (hw c hc).2.2.2.2.1)
      (by simpa [runStrategy] using hs)
  · exact linearRegression_strength (by simpa [runStrategy] using hs)

/-- Witness for `c8_strength_range_amended` on 21 identical unit candles
(breakout returns HOLD with strength 10). -/
theorem c8_strength_range_amended_witness :
    0 ≤ (Signal.mk Action.HOLD 10).strength ∧
      (Signal.mk Action.HOLD 10).strength ≤ 100 :=
  c8_strength_range_amended ("breakout", 21) (by simp)
    (List.replicate 21 ⟨0, 1, 1, 1, 1, 1, true⟩) (by decide!)
    (le_of_eq (List.length_replicate _ _).symm) _ (by decide!)

end TradeVault
